import Mathlib

/-!
Verification of the spectral-trajectory core of the RA-Dynamic-Systems-B
repository (files `trajectory_functions.py` and `my_min.py`).

The data model: a `Trajectory` is a 2-D numpy array of complex Fourier
coefficients indexed by (state dimension, mode); numpy's `rfft`/`irfft`
are modelled by the exact discrete Fourier transform over `ℂ` with the
primitive root `exp (2πi/N)`; numpy exceptions are modelled with
`Except`.  Arrays are modelled as total functions together with their
shape, with every entry outside the shape equal to zero (the `WF`
predicate); a checked out-of-shape numpy access is an `Err.numpyError`.
-/

namespace RAdyn

/-- Error kinds raised by the Python code.  `invalidInputType` is the
`TypeError` raised by `swap_tf`, `invalidIndexType` the `TypeError` and
`indexOutOfRange` the `ValueError` raised by the `jacobian` closure;
`numpyError` stands for exceptions raised inside numpy itself (bad FFT
length, out-of-bounds fancy indexing, mismatched `np.dot` operands).
`shapeMismatch` is the error kind named by the specification for
operand-shape disagreement; no code path produces it. -/
inductive Err where
  | invalidInputType
  | invalidIndexType
  | indexOutOfRange
  | shapeMismatch
  | numpyError
  deriving DecidableEq

/-- A `Trajectory`: `d` state dimensions, `M` stored Fourier modes, and the
complex coefficient array `modes` (row = state dimension, column = mode).
Entries outside the `d × M` shape are meaningless; well-formed values keep
them at `0` (see `Traj.WF`). -/
@[ext]
structure Traj where
  d : ℕ
  M : ℕ
  modes : ℕ → ℕ → ℂ

/-- A trajectory is well formed when every entry outside its declared
`d × M` shape is zero. -/
def Traj.WF (t : Traj) : Prop :=
  ∀ r k, t.d ≤ r ∨ t.M ≤ k → t.modes r k = 0

/-- A raw 2-D real array (the time-domain representation): `d` rows and
`N` sampled domain points per row. -/
@[ext]
structure RawArr where
  d : ℕ
  N : ℕ
  vals : ℕ → ℕ → ℝ

/-- Number of time-domain samples produced by `np.fft.irfft` from a
half-spectrum of `M` modes: the numpy default output length `2*(M-1)`. -/
def nS (M : ℕ) : ℕ := 2 * (M - 1)

/-- The primitive `N`-th root of unity `exp (2πi/N)` used by the discrete
Fourier transform. -/
noncomputable def expRoot (N : ℕ) : ℂ := Complex.exp (2 * Real.pi * Complex.I / N)

/-- Conjugate-symmetric extension of a stored half-spectrum `c` of `M`
modes to the full spectrum of length `nS M`: mode `k` is `c k` for
`k < M` and `conj (c (nS M - k))` above. -/
noncomputable def extSpec (M : ℕ) (c : ℕ → ℂ) (k : ℕ) : ℂ :=
  if k < M then c k else star (c (nS M - k))

/-- Model of `np.fft.irfft` on one row: sample `t` of the inverse DFT of
the conjugate-symmetric extension of `c`, normalised by `1/N`.  numpy's
real-output algorithm keeps only the real part (the imaginary parts of
the zero and Nyquist coefficients are discarded). -/
noncomputable def irfftRow (M : ℕ) (c : ℕ → ℂ) (t : ℕ) : ℝ :=
  (((nS M : ℂ))⁻¹ * ∑ k ∈ Finset.range (nS M), extSpec M c k * expRoot (nS M) ^ (t * k)).re

/-- Model of `np.fft.rfft` on one row: forward DFT coefficient `k` of the
real samples `x`, with the numpy sign convention `exp (-2πi·tk/N)`. -/
noncomputable def rfftRow (N : ℕ) (x : ℕ → ℝ) (k : ℕ) : ℂ :=
  ∑ t ∈ Finset.range N, (x t : ℂ) * star (expRoot N) ^ (t * k)

/-- The time-domain array produced from a trajectory: one row per state
dimension, `nS M` samples per row, each the `irfft` of that row's
modes. -/
noncomputable def timeArr (t : Traj) : RawArr :=
  ⟨t.d, nS t.M,
    fun r s => if r < t.d ∧ s < nS t.M then irfftRow t.M (t.modes r) s else 0⟩

/-- The `hasattr(object, 'modes')` branch of `swap_tf`:
`np.fft.irfft(object.modes, axis=1)`.  numpy raises (`numpyError`) when
the default output length `2*(M-1)` is not positive, i.e. when `M < 2`. -/
noncomputable def swap_tf_traj (t : Traj) : Except Err RawArr :=
  if t.M < 2 then .error .numpyError else .ok (timeArr t)

/-- The mode array produced from a time-domain array: `N/2 + 1` modes per
row, each row the `rfft` of that row's samples. -/
noncomputable def freqTraj (a : RawArr) : Traj :=
  ⟨a.d, a.N / 2 + 1,
    fun r k => if r < a.d ∧ k < a.N / 2 + 1 then rfftRow a.N (a.vals r) k else 0⟩

/-- The `type(object) == np.ndarray` branch of `swap_tf`:
`np.fft.rfft(object, axis=1)` on a 2-D real array, producing `N/2 + 1`
modes per row.  numpy raises (`numpyError`) on a length-0 transform
axis. -/
noncomputable def swap_tf_arr (a : RawArr) : Except Err Traj :=
  if a.N = 0 then .error .numpyError else .ok (freqTraj a)

/-- The possible dynamic types of the argument of `swap_tf`: a value with
a `modes` attribute (a `Trajectory`), a raw `np.ndarray`, or anything
else. -/
inductive SwapInput where
  | traj (t : Traj)
  | arr (a : RawArr)
  | other

/-- Result of `swap_tf`: a time-domain array (from a `Trajectory`) or a
mode array (from a raw array; the call sites wrap it in `Trajectory`). -/
inductive SwapOutput where
  | arr (a : RawArr)
  | traj (t : Traj)

/-- `swap_tf` from `trajectory_functions.py`: attribute dispatch between
the inverse transform (for a `Trajectory`), the forward transform (for a
raw array) and the `TypeError` raised for anything else. -/
noncomputable def swap_tf : SwapInput → Except Err SwapOutput
  | .traj t => (swap_tf_traj t).map .arr
  | .arr a => (swap_tf_arr a).map .traj
  | .other => .error .invalidInputType

/-- `traj_grad` from `trajectory_functions.py`: first multiply column `k`
by `1j*k` inside the `d × M` shape (the array starts as `np.zeros`), then,
when the mode count is even, zero the column at index `M // 2`. -/
noncomputable def traj_grad (t : Traj) : Traj :=
  let new1 : ℕ → ℕ → ℂ :=
    fun r k => if r < t.d ∧ k < t.M then Complex.I * k * t.modes r k else 0
  let new2 : ℕ → ℕ → ℂ :=
    if t.M % 2 = 0 then fun r k => if k = t.M / 2 then 0 else new1 r k else new1
  ⟨t.d, t.M, new2⟩

/-- One summand of the convolution loop of `traj_inner_prod`, at combined
mode `n` and offset `m`: `np.dot(vec1, vec2)` where `vec1` is
`conj(traj1[:, -m])` for `m < 0` and `traj1[:, m]` otherwise, and `vec2`
is `traj2[:, n-m]` (conjugated for `n-m < 0`) when `n-m` is below
`traj1`'s mode count and the zero vector otherwise.  `np.dot` of two 1-D
complex arrays is the plain (unconjugated) sum of products over the state
dimension. -/
noncomputable def ipTerm (t1 t2 : Traj) (n : ℕ) (m : ℤ) : ℂ :=
  ∑ r ∈ Finset.range t1.d,
    (if m < 0 then star (t1.modes r (-m).toNat) else t1.modes r m.toNat) *
    (if (n : ℤ) - m < (t1.M : ℤ) then
        (if (n : ℤ) - m < 0 then star (t2.modes r (m - (n : ℤ)).toNat)
         else t2.modes r ((n : ℤ) - m).toNat)
      else 0)

/-- The inner double loop of `traj_inner_prod` for combined mode `n`:
`for m in range(1 - M, M)`, i.e. the sum of `ipTerm` over the offsets
`1-M, …, M-1`. -/
noncomputable def ipSum (t1 t2 : Traj) (n : ℕ) : ℂ :=
  ∑ j ∈ Finset.range (2 * t1.M - 1), ipTerm t1 t2 n ((j : ℤ) + 1 - (t1.M : ℤ))

/-- Stored mode `n` of the result of `traj_inner_prod`: the convolution
sum normalised by `2*(M-1)` (the line `prod_modes/(2*(traj1.shape[1]-1))`). -/
noncomputable def ipMode (t1 t2 : Traj) (n : ℕ) : ℂ :=
  ipSum t1 t2 n / (2 * ((t1.M : ℂ) - 1))

/-- `traj_inner_prod` from `trajectory_functions.py`.  The loop performs
no shape validation of its own: numpy raises (`numpyError`) when the loop
indexes a `traj2` column at or beyond `traj2`'s mode count (which happens
exactly when `traj2` stores fewer modes than `traj1`), or when `np.dot`
is handed state vectors of different lengths (which happens on the first
iteration whenever `traj1.M ≥ 1` and the state dimensions differ).
Otherwise the result is the single-row trajectory of normalised
convolution modes over `traj1`'s mode count. -/
noncomputable def traj_inner_prod (t1 t2 : Traj) : Except Err Traj :=
  if t2.M < t1.M then .error .numpyError
  else if 1 ≤ t1.M ∧ t1.d ≠ t2.d then .error .numpyError
  else .ok ⟨1, t1.M, fun r n => if r = 0 ∧ n < t1.M then ipMode t1 t2 n else 0⟩

/-- The external `System` collaborator: a vector-field evaluation and a
Jacobian evaluation, both pure functions of a state vector. -/
structure System where
  field : (ℕ → ℝ) → ℕ → ℝ
  jacobian : (ℕ → ℝ) → ℕ → ℕ → ℝ

/-- `np.transpose` applied when `if_transp == True`, identity otherwise. -/
def applyTransp (tr : Bool) (m : ℕ → ℕ → ℝ) : ℕ → ℕ → ℝ :=
  if tr then fun p q => m q p else m

/-- The closure returned by `jacob_init` in `trajectory_functions.py`,
applied to a sample index `i` (a Python number, modelled as a rational).
It first converts the trajectory to the time domain, then raises
`TypeError` (`invalidIndexType`) for a fractional index, `ValueError`
(`indexOutOfRange`) for an index at or beyond the number of samples, and
otherwise returns `sys.jacobian` at the indexed state, transposed when
requested.  A negative integral index follows numpy indexing: column
`N + i`, with an `IndexError` (`numpyError`) below `-N`. -/
noncomputable def jacobian (t : Traj) (sys : System) (if_transp : Bool) (i : ℚ) :
    Except Err (ℕ → ℕ → ℝ) :=
  match swap_tf_traj t with
  | .error e => .error e
  | .ok curve =>
    if i.den ≠ 1 then .error .invalidIndexType
    else if (curve.N : ℚ) ≤ i then .error .indexOutOfRange
    else if i.num + (curve.N : ℤ) < 0 then .error .numpyError
    else .ok (applyTransp if_transp (sys.jacobian
        (fun r => curve.vals r
          (if i.num < 0 then (i.num + (curve.N : ℤ)).toNat else i.num.toNat))))

/-! ### The vectorization + optimization driver (`my_min.py`)

`traj2vec`/`vec2traj` (module `traj2vec`), the residual engine (module
`residual_functions`) and `scipy.optimize.minimize` are external
collaborators of `my_min.py` and are not part of the shown source; they
are modelled as abstract structures, so the theorems below hold for every
implementation of them.  The scipy solver's per-iteration callback
side effect is modelled by the solver reporting the ordered list of
iterate vectors at which it invoked the callback; `my_min` then folds the
callback body over that list. -/

/-- A flat real parameter vector. -/
def Vec : Type := ℕ → ℝ

/-- A mean state vector. -/
def MeanV : Type := ℕ → ℝ

/-- The external pack/unpack pair from module `traj2vec`:
`traj2vec(traj, freq)` flattens a trajectory–frequency pair, and
`vec2traj(vector, dim)` rebuilds the pair from a vector and a mode
count. -/
structure VecPack where
  traj2vec : Traj → ℝ → Vec
  vec2traj : Vec → ℕ → Traj × ℝ

/-- The external residual engine from module `residual_functions`. -/
structure ResFuncs where
  global_residual : Traj → System → ℝ → MeanV → ℝ
  gr_traj_grad : Traj → System → ℝ → MeanV → Traj
  gr_freq_grad : Traj → System → ℝ → MeanV → ℝ
  local_residual : Traj → System → ℝ → MeanV → Traj

/-- The options dictionary handed to the scipy solver by `my_min`: `disp`
is set from the `quiet` flag, and `maxiter` is present exactly when the
caller supplied an iteration cap. -/
structure SolOptions where
  disp : Bool
  maxiter : Option ℕ
  deriving DecidableEq

/-- The result object returned by the external solver: the final
parameter vector `x`, its termination status, and the ordered list of
iterate vectors at which the solver invoked the per-iteration
callback. -/
structure SolResult where
  x : Vec
  status : Bool
  iterates : List Vec

/-- The type of the external `scipy.optimize.minimize` collaborator:
objective, initial vector, gradient (the `jac` keyword), method name and
options, returning a `SolResult`. -/
def Minimizer : Type :=
  (Vec → ℝ) → Vec → (Vec → Vec) → String → SolOptions → SolResult

/-- The trace dictionary accumulated by `my_min`'s callback: lists of the
unpacked trajectory, frequency, local residual, global residual and
global-residual gradient at each iteration. -/
structure TraceRec where
  traj : List Traj
  freq : List ℝ
  lr : List Traj
  gr : List ℝ
  gr_grad : List Vec

/-- `init_opt_funcs` from `my_min.py`: the objective
`traj_global_res` (global residual after unpacking the vector) and the
gradient `traj_global_res_jac` (both residual gradients after unpacking,
re-packed into a flat vector). -/
def init_opt_funcs (P : VecPack) (R : ResFuncs) (sys : System) (dim : ℕ) (mean : MeanV) :
    (Vec → ℝ) × (Vec → Vec) :=
  (fun v => R.global_residual (P.vec2traj v dim).1 sys (P.vec2traj v dim).2 mean,
   fun v => P.traj2vec
      (R.gr_traj_grad (P.vec2traj v dim).1 sys (P.vec2traj v dim).2 mean)
      (R.gr_freq_grad (P.vec2traj v dim).1 sys (P.vec2traj v dim).2 mean))

/-- The body of `my_min`'s callback: unpack the iterate, and append the
trajectory, frequency, local residual, objective value and gradient
vector to the trace. -/
def callbackStep (P : VecPack) (R : ResFuncs) (sys : System) (dim : ℕ) (mean : MeanV)
    (ts : TraceRec) (x : Vec) : TraceRec :=
  ⟨ts.traj ++ [(P.vec2traj x dim).1],
   ts.freq ++ [(P.vec2traj x dim).2],
   ts.lr ++ [R.local_residual (P.vec2traj x dim).1 sys (P.vec2traj x dim).2 mean],
   ts.gr ++ [(init_opt_funcs P R sys dim mean).1 x],
   ts.gr_grad ++ [(init_opt_funcs P R sys dim mean).2 x]⟩

/-- `my_min` from `my_min.py`: set up the objective/gradient pair for
`dim = traj.shape[1]`, start from the caller's trace dictionary (or a
fresh empty one), pack the initial pair, build the options from `quiet`
and the optional iteration cap, call the solver, replay the callback over
the solver's iterates, and return the unpacked optimum together with the
trace and the solver result. -/
def my_min (minimize : Minimizer) (P : VecPack) (R : ResFuncs)
    (traj : Traj) (freq : ℝ) (sys : System) (mean : MeanV)
    (method : String) (quiet : Bool) (maxiter : Option ℕ) (traces0 : Option TraceRec) :
    Traj × ℝ × TraceRec × SolResult :=
  let dim := traj.M
  let fns := init_opt_funcs P R sys dim mean
  let traces := traces0.getD ⟨[], [], [], [], []⟩
  let traj_vec := P.traj2vec traj freq
  let options : SolOptions := ⟨!quiet, maxiter⟩
  let sol := minimize fns.1 traj_vec fns.2 method options
  let finalTraces := sol.iterates.foldl (callbackStep P R sys dim mean) traces
  ((P.vec2traj sol.x dim).1, (P.vec2traj sol.x dim).2, finalTraces, sol)

/-! ### Concrete values used by witnesses and counterexamples -/

/-- A 1-dimensional trajectory with 2 modes `[1, 2]` (both real, so its
half-spectrum is valid). -/
noncomputable def tA : Traj :=
  ⟨1, 2, fun r k => if r = 0 ∧ k = 0 then 1 else if r = 0 ∧ k = 1 then 2 else 0⟩

/-- A 1-dimensional trajectory with 3 modes `[0, i, 0]` (valid
half-spectrum: real zero mode and real Nyquist mode). -/
noncomputable def tB : Traj :=
  ⟨1, 3, fun r k => if r = 0 ∧ k = 1 then Complex.I else 0⟩

/-- A 1-dimensional trajectory with 3 modes `[0, 0, 1]` (valid
half-spectrum). -/
noncomputable def tC : Traj :=
  ⟨1, 3, fun r k => if r = 0 ∧ k = 2 then 1 else 0⟩

/-- A 1-dimensional trajectory with 4 modes `[0, 0, 1, 1]`. -/
noncomputable def tD : Traj :=
  ⟨1, 4, fun r k => if r = 0 ∧ (k = 2 ∨ k = 3) then 1 else 0⟩

/-- A 1-dimensional trajectory with a single stored mode. -/
noncomputable def tE : Traj := ⟨1, 1, fun _ _ => 0⟩

/-- A concrete `System` collaborator. -/
noncomputable def sysZ : System := ⟨fun s => s, fun s _ _ => s 0⟩

/-- A concrete 1-row raw time-domain array with 2 samples `[1, 0]`. -/
noncomputable def arrA : RawArr :=
  ⟨1, 2, fun r s => if r = 0 ∧ s = 0 then 1 else 0⟩

/-! ### Claim C4: the optimization driver's wiring -/

/-- C4: `my_min` passes the external solver the objective
`global_residual ∘ vec2traj` and the gradient
`traj2vec (gr_traj_grad, gr_freq_grad) ∘ vec2traj` built by
`init_opt_funcs`, and returns exactly the trajectory and frequency
unpacked from the solver's final vector, together with the callback
trace (the caller's trace, or a fresh one, extended by one snapshot per
solver iterate) and the solver's result object. -/
theorem my_min_solver_contract (minimize : Minimizer) (P : VecPack) (R : ResFuncs)
    (traj : Traj) (freq : ℝ) (sys : System) (mean : MeanV)
    (method : String) (quiet : Bool) (maxiter : Option ℕ) (traces0 : Option TraceRec) :
    (init_opt_funcs P R sys traj.M mean).1 =
      (fun v => R.global_residual (P.vec2traj v traj.M).1 sys (P.vec2traj v traj.M).2 mean) ∧
    (init_opt_funcs P R sys traj.M mean).2 =
      (fun v => P.traj2vec
        (R.gr_traj_grad (P.vec2traj v traj.M).1 sys (P.vec2traj v traj.M).2 mean)
        (R.gr_freq_grad (P.vec2traj v traj.M).1 sys (P.vec2traj v traj.M).2 mean)) ∧
    my_min minimize P R traj freq sys mean method quiet maxiter traces0 =
      (let sol := minimize (init_opt_funcs P R sys traj.M mean).1 (P.traj2vec traj freq)
          (init_opt_funcs P R sys traj.M mean).2 method ⟨!quiet, maxiter⟩
       ((P.vec2traj sol.x traj.M).1, (P.vec2traj sol.x traj.M).2,
        sol.iterates.foldl (callbackStep P R sys traj.M mean)
          (traces0.getD ⟨[], [], [], [], []⟩), sol)) :=
  ⟨rfl, rfl, rfl⟩

/-! ### Claim C2: the spectral derivative -/

/-- C2 counterexample: for the 4-mode trajectory `tD = [0, 0, 1, 1]` the
mode count is even, yet the highest stored (per the spec, Nyquist) mode
of `traj_grad tD` is `3i`, not `0`; the mode that is actually zeroed is
index `M // 2 = 2`, where the claimed value `i·2·1 = 2i` does not hold.
This refutes the claim that the highest stored mode is forced to zero
(and, at index 2, the claim that every mode `k` is multiplied by `i·k`). -/
theorem traj_grad_nyquist_cex :
    (traj_grad tD).M % 2 = 0 ∧
    (traj_grad tD).modes 0 ((traj_grad tD).M - 1) ≠ 0 ∧
    (traj_grad tD).modes 0 2 ≠ Complex.I * (2 : ℕ) * tD.modes 0 2 := by
  refine ⟨rfl, ?_, ?_⟩
  · show (traj_grad tD).modes 0 3 ≠ 0
    simp [traj_grad, tD, Complex.ext_iff]
  · simp [traj_grad, tD, Complex.ext_iff]

/-- C2 amended: `traj_grad` preserves the shape and multiplies mode `k`
by `i·k` in every state dimension, except that when the mode count `M` is
even the mode at index `M / 2` (the half index, not the highest stored
mode) is forced to zero. -/
theorem traj_grad_ik_except_half (t : Traj) :
    (traj_grad t).d = t.d ∧ (traj_grad t).M = t.M ∧
    ∀ r k, r < t.d → k < t.M →
      (traj_grad t).modes r k =
        if t.M % 2 = 0 ∧ k = t.M / 2 then 0
        else Complex.I * (k : ℕ) * t.modes r k := by
  refine ⟨rfl, rfl, fun r k hr hk => ?_⟩
  simp only [traj_grad]
  by_cases hM : t.M % 2 = 0
  · by_cases hk2 : k = t.M / 2 <;> simp [hM, hk2, hr, hk]
  · simp [hM, hr, hk]

/-- C2 amended, witness: the amended description evaluated on `tD` at
state dimension 0, mode 3. -/
theorem traj_grad_ik_except_half_witness :
    (traj_grad tD).modes 0 3 =
      if tD.M % 2 = 0 ∧ 3 = tD.M / 2 then 0
      else Complex.I * ((3 : ℕ) : ℕ) * tD.modes 0 3 :=
  (traj_grad_ik_except_half tD).2.2 0 3 (by norm_num [tD]) (by norm_num [tD])

/-! ### Shared helper lemmas -/

/-- A trajectory with at least two modes converts to the time domain
without error. -/
theorem swap_tf_traj_ok {t : Traj} (h2 : 2 ≤ t.M) :
    swap_tf_traj t = .ok (timeArr t) := by
  rw [swap_tf_traj, if_neg (by omega)]

/-- Unfolding of the Jacobian accessor for a transformable trajectory:
the fractional-index check, the upper-bound check, the numpy lower-bound
check, and the state lookup with negative-index wraparound. -/
theorem jacobian_eq (t : Traj) (sys : System) (tr : Bool) (i : ℚ) (h2 : 2 ≤ t.M) :
    jacobian t sys tr i =
      (if i.den ≠ 1 then .error .invalidIndexType
       else if ((nS t.M : ℕ) : ℚ) ≤ i then .error .indexOutOfRange
       else if i.num + ((nS t.M : ℕ) : ℤ) < 0 then .error .numpyError
       else .ok (applyTransp tr (sys.jacobian (fun r => (timeArr t).vals r
          (if i.num < 0 then (i.num + ((nS t.M : ℕ) : ℤ)).toNat
           else i.num.toNat))))) := by
  rw [jacobian, swap_tf_traj_ok h2]
  rfl

/-- An integral rational with denominator 1 equals its numerator. -/
theorem num_cast_of_den_one {i : ℚ} (hden : i.den = 1) : (i.num : ℚ) = i := by
  conv_rhs => rw [← Rat.num_div_den i]
  rw [hden]
  simp

/-! ### Claims C6, C10: the Jacobian accessor's index handling -/

/-- C6: for a trajectory whose spectrum can be transformed (at least two
modes), the accessor returned by `jacob_init` raises `TypeError`
(`invalidIndexType`) on a fractional index, and `ValueError`
(`indexOutOfRange`) on an integral index at or beyond the number
`2*(M-1)` of sampled domain points. -/
theorem jacobian_index_errors (t : Traj) (sys : System) (tr : Bool) (i : ℚ)
    (h2 : 2 ≤ t.M) :
    (i.den ≠ 1 → jacobian t sys tr i = .error .invalidIndexType) ∧
    (i.den = 1 → ((nS t.M : ℕ) : ℚ) ≤ i →
      jacobian t sys tr i = .error .indexOutOfRange) := by
  constructor
  · intro hden
    rw [jacobian_eq t sys tr i h2, if_pos hden]
  · intro hden hge
    rw [jacobian_eq t sys tr i h2, if_neg (by simp [hden]), if_pos hge]

/-- C6 witness: the two error behaviours evaluated on the concrete
trajectory `tA` (2 modes, hence 2 samples) at the fractional index `1/2`
and the out-of-range integral index `5`. -/
theorem jacobian_index_errors_witness :
    jacobian tA sysZ false (1/2) = .error .invalidIndexType ∧
    jacobian tA sysZ false 5 = .error .indexOutOfRange :=
  ⟨(jacobian_index_errors tA sysZ false (1/2) (by norm_num [tA])).1
     (by
       have h := Rat.den_div_intCast_eq_one_iff 1 2 (by norm_num)
       push_cast at h
       rw [Ne, h]
       norm_num),
   (jacobian_index_errors tA sysZ false 5 (by norm_num [tA])).2 rfl
     (by norm_num [tA, nS])⟩

/-- C10: the accessor accepts negative integral indices without raising:
for an integral `i` with `-N ≤ i < 0` (`N` the number of samples) it
returns the System's Jacobian — transposed when requested — evaluated at
the state of sample `N + i`, following numpy's negative-index
convention. -/
theorem jacobian_negative_index (t : Traj) (sys : System) (tr : Bool) (i : ℚ)
    (h2 : 2 ≤ t.M) (hden : i.den = 1)
    (hlo : -(((nS t.M : ℕ) : ℚ)) ≤ i) (hhi : i < 0) :
    ∃ a : RawArr, swap_tf_traj t = .ok a ∧
      jacobian t sys tr i =
        .ok (applyTransp tr (sys.jacobian
          (fun r => a.vals r ((i.num + (a.N : ℤ)).toNat)))) := by
  have hiq : (i.num : ℚ) = i := num_cast_of_den_one hden
  have hnum_lo : -((nS t.M : ℤ)) ≤ i.num := by
    have h : -(((nS t.M : ℕ) : ℚ)) ≤ (i.num : ℚ) := by rw [hiq]; exact hlo
    exact_mod_cast h
  have hnum_hi : i.num < 0 := by
    have h : (i.num : ℚ) < 0 := by rw [hiq]; exact hhi
    exact_mod_cast h
  refine ⟨timeArr t, swap_tf_traj_ok h2, ?_⟩
  have hle : ¬ (((nS t.M : ℕ) : ℚ) ≤ i) := by
    push_neg
    calc i < 0 := hhi
    _ ≤ ((nS t.M : ℕ) : ℚ) := by positivity
  have hidx : ¬ (i.num + ((nS t.M : ℕ) : ℤ) < 0) := by omega
  rw [jacobian_eq t sys tr i h2, if_neg (by simp [hden]), if_neg hle, if_neg hidx]
  simp only [hnum_hi, if_true]
  rfl

/-- C10 witness: the negative-index behaviour evaluated at the concrete
trajectory `tA` with index `-1`. -/
theorem jacobian_negative_index_witness :
    ∃ a : RawArr, swap_tf_traj tA = .ok a ∧
      jacobian tA sysZ true (-1) =
        .ok (applyTransp true (sysZ.jacobian
          (fun r => a.vals r (((-1 : ℚ).num + (a.N : ℤ)).toNat)))) :=
  jacobian_negative_index tA sysZ true (-1) (by norm_num [tA]) (by decide)
    (by norm_num [tA, nS]) (by norm_num)

/-! ### Claim C7: no boundary shape validation in the trajectory algebra -/

/-- C7 counterexample: `tA` stores 2 modes and `tC` stores 3, so the two
operands of the inner product disagree on mode count, yet
`traj_inner_prod` raises nothing and returns an ordinary single-row
result (computed from `tA`'s mode count alone): the operation does not
detect the mismatch at its boundary, and no `shapeMismatch` failure
occurs. -/
theorem inner_prod_no_shape_check_cex :
    tA.M ≠ tC.M ∧
    traj_inner_prod tA tC =
      .ok ⟨1, tA.M, fun r n => if r = 0 ∧ n < tA.M then ipMode tA tC n else 0⟩ := by
  constructor
  · norm_num [tA, tC]
  · rfl

/-- C7 amended: the operations perform no boundary shape validation.
Whenever the second operand stores at least as many modes as the first
and the state dimensions agree, `traj_inner_prod` returns a result
computed purely over the first operand's mode count — even when the mode
counts disagree — and no input whatsoever makes it fail with
`shapeMismatch`. -/
theorem inner_prod_no_shape_check (t1 t2 : Traj) (hM : t1.M ≤ t2.M) (hd : t1.d = t2.d) :
    traj_inner_prod t1 t2 =
      .ok ⟨1, t1.M, fun r n => if r = 0 ∧ n < t1.M then ipMode t1 t2 n else 0⟩ ∧
    ∀ u v : Traj, traj_inner_prod u v ≠ .error .shapeMismatch := by
  constructor
  · rw [traj_inner_prod, if_neg (by omega), if_neg (by simp [hd])]
  · intro u v
    unfold traj_inner_prod
    split_ifs <;> simp

/-- C7 amended, witness: the mismatched pair `tA` (2 modes), `tC`
(3 modes). -/
theorem inner_prod_no_shape_check_witness :
    traj_inner_prod tA tC =
      .ok ⟨1, tA.M, fun r n => if r = 0 ∧ n < tA.M then ipMode tA tC n else 0⟩ ∧
    ∀ u v : Traj, traj_inner_prod u v ≠ .error .shapeMismatch :=
  inner_prod_no_shape_check tA tC (by norm_num [tA, tC]) rfl

/-! ### Claim C9: `2*(M-1)` samples, bound and divisor -/

/-- C9: for a trajectory with `M ≥ 2` modes, the time-domain conversion
produces exactly `2*(M-1)` samples per state dimension; that same number
is exactly the bound of the Jacobian accessor's index check (integral
non-negative indices fail with `indexOutOfRange` precisely when they
reach it) and the divisor normalising every inner-product mode. -/
theorem time_domain_sample_count (t : Traj) (h2 : 2 ≤ t.M) :
    ∃ a : RawArr, swap_tf_traj t = .ok a ∧ a.N = 2 * (t.M - 1) ∧
      (∀ (sys : System) (tr : Bool) (i : ℚ), i.den = 1 → 0 ≤ i →
        ((((2 * (t.M - 1) : ℕ)) : ℚ) ≤ i ↔
          jacobian t sys tr i = .error .indexOutOfRange)) ∧
      (∀ (t2 : Traj) (n : ℕ),
        ipMode t t2 n = ipSum t t2 n / (((2 * (t.M - 1) : ℕ)) : ℂ)) := by
  refine ⟨timeArr t, swap_tf_traj_ok h2, rfl, ?_, ?_⟩
  · intro sys tr i hden hnn
    constructor
    · intro hge
      have hge' : ((nS t.M : ℕ) : ℚ) ≤ i := hge
      rw [jacobian_eq t sys tr i h2, if_neg (by simp [hden]), if_pos hge']
    · intro herr
      by_contra hlt
      push_neg at hlt
      have hlt' : ¬ (((nS t.M : ℕ) : ℚ) ≤ i) := not_le.mpr hlt
      have hnum_nn : 0 ≤ i.num := Rat.num_nonneg.mpr hnn
      have hidx : ¬ (i.num + ((nS t.M : ℕ) : ℤ) < 0) := by omega
      rw [jacobian_eq t sys tr i h2, if_neg (by simp [hden]),
        if_neg hlt', if_neg hidx] at herr
      exact absurd herr (by simp)
  · intro t2 n
    have h1 : (1 : ℕ) ≤ t.M := by omega
    rw [ipMode]
    congr 1
    push_cast [Nat.cast_sub h1]
    ring

/-- C9 witness: the sample count, index bound and divisor evaluated on
the concrete 2-mode trajectory `tA`. -/
theorem time_domain_sample_count_witness :
    ∃ a : RawArr, swap_tf_traj tA = .ok a ∧ a.N = 2 * (tA.M - 1) ∧
      (∀ (sys : System) (tr : Bool) (i : ℚ), i.den = 1 → 0 ≤ i →
        ((((2 * (tA.M - 1) : ℕ)) : ℚ) ≤ i ↔
          jacobian tA sys tr i = .error .indexOutOfRange)) ∧
      (∀ (t2 : Traj) (n : ℕ),
        ipMode tA t2 n = ipSum tA t2 n / (((2 * (tA.M - 1) : ℕ)) : ℂ)) :=
  time_domain_sample_count tA (by norm_num [tA])

/-! ### Claim C8: the behaviours of `swap_tf` -/

/-- C8 counterexample: `tE` is a `Trajectory` (the first kind of input),
yet `swap_tf` fails on it — numpy's `irfft` rejects the single-mode
half-spectrum because the default output length `2*(M-1)` is zero.  This
refutes the claim that `swap_tf` never fails for the first two kinds of
input. -/
theorem swap_tf_single_mode_cex :
    swap_tf (.traj tE) = .error .numpyError := rfl

/-- C8 amended: `swap_tf` dispatches on the dynamic type of its argument:
a `Trajectory` with at least two modes is turned into the inverse real
Fourier transform of its modes along the mode axis, a raw 2-D array with
a non-empty time axis into the forward real Fourier transform along the
time axis, and any other value fails with `invalidInputType`; the first
two behaviours cannot fail under those (numpy-imposed) length conditions,
but a single-mode `Trajectory` or an empty time axis makes numpy itself
raise. -/
theorem swap_tf_dispatch :
    (∀ t : Traj, 2 ≤ t.M → swap_tf (.traj t) = .ok (.arr (timeArr t))) ∧
    (∀ a : RawArr, a.N ≠ 0 → swap_tf (.arr a) = .ok (.traj (freqTraj a))) ∧
    swap_tf .other = .error .invalidInputType := by
  refine ⟨fun t h2 => ?_, fun a hN => ?_, rfl⟩
  · show Except.map SwapOutput.arr (swap_tf_traj t) = _
    rw [swap_tf_traj_ok h2]
    rfl
  · show Except.map SwapOutput.traj (swap_tf_arr a) = _
    rw [swap_tf_arr, if_neg hN]
    rfl

/-- C8 amended, witness: the three behaviours at the concrete inputs
`tA`, `arrA` and the `other` tag. -/
theorem swap_tf_dispatch_witness :
    swap_tf (.traj tA) = .ok (.arr (timeArr tA)) ∧
    swap_tf (.arr arrA) = .ok (.traj (freqTraj arrA)) ∧
    swap_tf .other = .error .invalidInputType :=
  ⟨swap_tf_dispatch.1 tA (by norm_num [tA]),
   swap_tf_dispatch.2.1 arrA (by norm_num [arrA]),
   swap_tf_dispatch.2.2⟩

/-! ### Claim C1: the inner-product convolution formula -/

/-- The claim's reflected coefficient accessor: trajectory's stored
column `k` for `0 ≤ k < M`, the conjugate of column `-k` for `k < 0`, and
the zero vector for `k ≥ M`.  This definition follows the specification's
words; `inner_prod_convolution` compares it with the code's loop. -/
noncomputable def specCoeff (t : Traj) (k : ℤ) (r : ℕ) : ℂ :=
  if k < 0 then star (t.modes r (-k).toNat)
  else if k < (t.M : ℤ) then t.modes r k.toNat
  else 0

/-- The claim's formula for mode `n` of the inner product: the sum over
`m` from `1-M` to `M-1` of the state-dimension dot product of the
reflected coefficients `c1(m)` and `c2(n-m)`, divided by `2*(M-1)`.
This definition follows the specification's words. -/
noncomputable def innerProduct_spec (t1 t2 : Traj) (n : ℕ) : ℂ :=
  (∑ m ∈ Finset.Icc (1 - (t1.M : ℤ)) ((t1.M : ℤ) - 1),
      ∑ r ∈ Finset.range t1.d, specCoeff t1 m r * specCoeff t2 ((n : ℤ) - m) r) /
    (2 * ((t1.M : ℂ) - 1))

/-- The code's loop `for m in range(1 - M, M)` enumerates exactly the
integer interval `[1-M, M-1]`. -/
theorem ipSum_eq_Icc (t1 t2 : Traj) (n : ℕ) :
    ipSum t1 t2 n =
      ∑ m ∈ Finset.Icc (1 - (t1.M : ℤ)) ((t1.M : ℤ) - 1), ipTerm t1 t2 n m := by
  rw [ipSum]
  refine Finset.sum_nbij' (fun j => (j : ℤ) + 1 - (t1.M : ℤ))
    (fun m => (m - 1 + (t1.M : ℤ)).toNat) ?_ ?_ ?_ ?_ ?_
  · intro j hj
    simp only [Finset.mem_range] at hj
    simp only [Finset.mem_Icc]
    omega
  · intro m hm
    simp only [Finset.mem_Icc] at hm
    simp only [Finset.mem_range]
    omega
  · intro j hj
    simp only [Finset.mem_range] at hj
    show (((j : ℤ) + 1 - (t1.M : ℤ)) - 1 + (t1.M : ℤ)).toNat = j
    omega
  · intro m hm
    simp only [Finset.mem_Icc] at hm
    show (((m - 1 + (t1.M : ℤ)).toNat : ℤ)) + 1 - (t1.M : ℤ) = m
    omega
  · intro j hj
    rfl

/-- C1: for operands of equal state dimension and equal (≥ 2) mode count,
`traj_inner_prod` returns the single-row trajectory over the same `M`
modes whose mode `n` (for every `n < M`) is the convolution sum of the
claim: the reflected-coefficient dot products over `m ∈ [1-M, M-1]`,
divided by `2*(M-1)`. -/
theorem inner_prod_convolution (t1 t2 : Traj) (hd : t1.d = t2.d) (hM : t1.M = t2.M)
    (h2 : 2 ≤ t1.M) :
    ∃ T : Traj, traj_inner_prod t1 t2 = .ok T ∧ T.d = 1 ∧ T.M = t1.M ∧
      ∀ n < t1.M, T.modes 0 n = innerProduct_spec t1 t2 n := by
  refine ⟨⟨1, t1.M, fun r n => if r = 0 ∧ n < t1.M then ipMode t1 t2 n else 0⟩,
    ?_, rfl, rfl, ?_⟩
  · rw [traj_inner_prod, if_neg (by omega), if_neg (by simp [hd])]
  · intro n hn
    show (if 0 = 0 ∧ n < t1.M then ipMode t1 t2 n else 0) = innerProduct_spec t1 t2 n
    rw [if_pos ⟨rfl, hn⟩, ipMode, innerProduct_spec, ipSum_eq_Icc]
    congr 1
    apply Finset.sum_congr rfl
    intro m hm
    simp only [Finset.mem_Icc] at hm
    rw [ipTerm]
    apply Finset.sum_congr rfl
    intro r hr
    congr 1
    · rw [specCoeff]
      by_cases hmneg : m < 0
      · rw [if_pos hmneg, if_pos hmneg]
      · rw [if_neg hmneg, if_neg hmneg, if_pos (by omega)]
    · rw [specCoeff]
      by_cases hlt : (n : ℤ) - m < (t1.M : ℤ)
      · rw [if_pos hlt]
        by_cases hneg : (n : ℤ) - m < 0
        · rw [if_pos hneg, if_pos hneg]
          congr 2
          omega
        · rw [if_neg hneg, if_neg hneg, if_pos (by omega)]
      · rw [if_neg hlt, if_neg (by omega), if_neg (by omega)]

/-- C1 witness: the convolution description evaluated on the concrete
pair `(tA, tA)`. -/
theorem inner_prod_convolution_witness :
    ∃ T : Traj, traj_inner_prod tA tA = .ok T ∧ T.d = 1 ∧ T.M = tA.M ∧
      ∀ n < tA.M, T.modes 0 n = innerProduct_spec tA tA n :=
  inner_prod_convolution tA tA rfl rfl (by norm_num [tA])

/-! ### Claim C5: (failed) Hermitian symmetry of the inner product -/

/-- A complex number with zero imaginary part is fixed by conjugation. -/
theorem star_eq_self_of_im {z : ℂ} (h : z.im = 0) : star z = z := by
  rw [Complex.star_def]
  exact Complex.conj_eq_iff_im.mpr h

/-- For operands with equal shapes and real zero modes, the summand of
the zero mode of the inner product is conjugate-symmetric in its two
operands. -/
theorem ipTerm_zero_mode_star (t1 t2 : Traj) (hd : t1.d = t2.d) (hM : t1.M = t2.M)
    (h10 : ∀ r, (t1.modes r 0).im = 0) (h20 : ∀ r, (t2.modes r 0).im = 0)
    (m : ℤ) (hm1 : 1 - (t1.M : ℤ) ≤ m) (hm2 : m ≤ (t1.M : ℤ) - 1) :
    ipTerm t1 t2 0 m = star (ipTerm t2 t1 0 m) := by
  rw [ipTerm, ipTerm, star_sum, ← hd, ← hM]
  apply Finset.sum_congr rfl
  intro r hr
  rw [star_mul']
  simp only [Nat.cast_zero, zero_sub, sub_zero]
  rcases lt_trichotomy m 0 with hneg | hz | hpos
  · have hlt : -m < (t1.M : ℤ) := by omega
    have hnn : ¬ (-m < 0) := by omega
    simp only [if_pos hneg, if_pos hlt, if_neg hnn, star_star]
    ring
  · subst hz
    have hMpos : (0 : ℤ) < (t1.M : ℤ) := by omega
    simp only [neg_zero, lt_self_iff_false, if_false, hMpos, if_true, Int.toNat_zero]
    rw [star_eq_self_of_im (h10 r), star_eq_self_of_im (h20 r)]
    ring
  · have hneg : ¬ (m < 0) := by omega
    have hlt : -m < (t1.M : ℤ) := by omega
    have hnn : -m < 0 := by omega
    simp only [if_neg hneg, if_pos hlt, if_pos hnn, star_star]
    ring

/-- Each zero-mode summand of the self inner product of a trajectory with
a real zero mode is a non-negative real number. -/
theorem ipTerm_self_real (t : Traj) (ht0 : ∀ r, (t.modes r 0).im = 0)
    (m : ℤ) (hm1 : 1 - (t.M : ℤ) ≤ m) (hm2 : m ≤ (t.M : ℤ) - 1) :
    (ipTerm t t 0 m).im = 0 ∧ 0 ≤ (ipTerm t t 0 m).re := by
  have entry : ∀ r ∈ Finset.range t.d, ∃ x : ℝ, 0 ≤ x ∧
      ((if m < 0 then star (t.modes r (-m).toNat) else t.modes r m.toNat) *
        (if (((0 : ℕ) : ℤ)) - m < (t.M : ℤ) then
          (if (((0 : ℕ) : ℤ)) - m < 0 then star (t.modes r (m - (((0 : ℕ) : ℤ))).toNat)
           else t.modes r ((((0 : ℕ) : ℤ)) - m).toNat)
         else 0)) = (x : ℂ) := by
    intro r _
    simp only [Nat.cast_zero, zero_sub, sub_zero]
    rcases lt_trichotomy m 0 with hneg | hz | hpos
    · have hlt : -m < (t.M : ℤ) := by omega
      have hnn : ¬ (-m < 0) := by omega
      refine ⟨Complex.normSq (t.modes r (-m).toNat), Complex.normSq_nonneg _, ?_⟩
      simp only [if_pos hneg, if_pos hlt, if_neg hnn]
      rw [Complex.star_def, mul_comm, Complex.mul_conj]
    · subst hz
      have hMpos : (0 : ℤ) < (t.M : ℤ) := by omega
      refine ⟨(t.modes r 0).re * (t.modes r 0).re, mul_self_nonneg _, ?_⟩
      simp only [neg_zero, lt_self_iff_false, if_false, hMpos, if_true, Int.toNat_zero]
      have hz0 : t.modes r 0 = ((t.modes r 0).re : ℂ) := by
        apply Complex.ext <;> simp [ht0 r]
      conv_lhs => rw [hz0]
      push_cast
      ring
    · have hneg : ¬ (m < 0) := by omega
      have hlt : -m < (t.M : ℤ) := by omega
      have hnn : -m < 0 := by omega
      refine ⟨Complex.normSq (t.modes r m.toNat), Complex.normSq_nonneg _, ?_⟩
      simp only [if_neg hneg, if_pos hlt, if_pos hnn]
      rw [Complex.star_def, Complex.mul_conj]
  constructor
  · rw [ipTerm, Complex.im_sum]
    apply Finset.sum_eq_zero
    intro r hr
    obtain ⟨x, _, hx⟩ := entry r hr
    rw [hx, Complex.ofReal_im]
  · rw [ipTerm, Complex.re_sum]
    apply Finset.sum_nonneg
    intro r hr
    obtain ⟨x, hx0, hx⟩ := entry r hr
    rw [hx, Complex.ofReal_re]
    exact hx0

/-- C5 counterexample: `tB = [0, i, 0]` and `tC = [0, 0, 1]` are valid
half-spectra of matching shape, yet mode 1 of `innerProduct(tB, tC)` is
`-i/4` while the conjugate of mode 1 of `innerProduct(tC, tB)` is `i/4`:
the inner product is not the elementwise conjugate of its reversal, so
the claimed symmetry fails (truncation treats the two operands
asymmetrically). -/
theorem inner_prod_symmetry_cex :
    Except.map (fun T => T.modes 0 1) (traj_inner_prod tB tC) ≠
      Except.map (fun T => star (T.modes 0 1)) (traj_inner_prod tC tB) := by
  have e1 : ipSum tB tC 1 = -Complex.I := by
    rw [ipSum]
    norm_num [Finset.sum_range_succ, ipTerm, tB, tC, Complex.ext_iff,
      show Int.toNat 2 = 2 from rfl, Complex.star_def, Complex.conj_I]
  have e2 : ipSum tC tB 1 = -Complex.I := by
    rw [ipSum]
    norm_num [Finset.sum_range_succ, ipTerm, tB, tC, Complex.ext_iff,
      show Int.toNat 2 = 2 from rfl, Complex.star_def, Complex.conj_I]
  have hBM : tB.M = 3 := rfl
  have hCM : tC.M = 3 := rfl
  have h1 : traj_inner_prod tB tC =
      .ok ⟨1, 3, fun r n => if r = 0 ∧ n < 3 then ipMode tB tC n else 0⟩ := rfl
  have h2 : traj_inner_prod tC tB =
      .ok ⟨1, 3, fun r n => if r = 0 ∧ n < 3 then ipMode tC tB n else 0⟩ := rfl
  rw [h1, h2]
  simp only [Except.map, Except.ok.injEq, ne_eq, Nat.one_lt_ofNat, and_true,
    Nat.zero_lt_succ, if_true, if_pos rfl]
  norm_num [ipMode, e1, e2, hBM, hCM, Complex.ext_iff, Complex.div_im, Complex.div_re,
    Complex.normSq, Complex.star_def]

/-- C5 corrected: what survives of the claim at the zero mode.  For
operands of matching shape whose zero modes are real (as the
half-spectrum invariant demands), mode 0 of `innerProduct(t1, t2)` is the
conjugate of mode 0 of `innerProduct(t2, t1)`; and mode 0 of
`innerProduct(t, t)` is real and non-negative.  (At the other modes both
statements are refuted by `inner_prod_symmetry_cex`.) -/
theorem inner_prod_zero_mode_hermitian (t1 t2 t : Traj) (hd : t1.d = t2.d)
    (hM : t1.M = t2.M) (h2 : 2 ≤ t1.M) (ht2 : 2 ≤ t.M)
    (h10 : ∀ r, (t1.modes r 0).im = 0) (h20 : ∀ r, (t2.modes r 0).im = 0)
    (ht0 : ∀ r, (t.modes r 0).im = 0) :
    ipMode t1 t2 0 = star (ipMode t2 t1 0) ∧
    (ipMode t t 0).im = 0 ∧ 0 ≤ (ipMode t t 0).re := by
  have hdivC : (2 * ((t.M : ℂ) - 1)) = ((2 * ((t.M : ℝ) - 1) : ℝ) : ℂ) := by
    push_cast
    ring
  refine ⟨?_, ?_, ?_⟩
  · rw [ipMode, ipMode, star_div₀, ← hM]
    congr 1
    · rw [ipSum, ipSum, star_sum, ← hM]
      apply Finset.sum_congr rfl
      intro j hj
      simp only [Finset.mem_range] at hj
      exact ipTerm_zero_mode_star t1 t2 hd hM h10 h20 _ (by omega) (by omega)
    · simp
  · rw [ipMode, hdivC, Complex.div_ofReal_im]
    have hz : (ipSum t t 0).im = 0 := by
      rw [ipSum, Complex.im_sum]
      apply Finset.sum_eq_zero
      intro j hj
      simp only [Finset.mem_range] at hj
      exact (ipTerm_self_real t ht0 _ (by omega) (by omega)).1
    rw [hz, zero_div]
  · rw [ipMode, hdivC, Complex.div_ofReal_re]
    apply div_nonneg
    · rw [ipSum, Complex.re_sum]
      apply Finset.sum_nonneg
      intro j hj
      simp only [Finset.mem_range] at hj
      exact (ipTerm_self_real t ht0 _ (by omega) (by omega)).2
    · have h1 : (2 : ℝ) ≤ (t.M : ℝ) := by exact_mod_cast ht2
      linarith

/-- C5 corrected, witness: the zero-mode Hermitian symmetry and
non-negativity evaluated at the concrete real trajectory `tA`. -/
theorem inner_prod_zero_mode_hermitian_witness :
    ipMode tA tA 0 = star (ipMode tA tA 0) ∧
    (ipMode tA tA 0).im = 0 ∧ 0 ≤ (ipMode tA tA 0).re :=
  inner_prod_zero_mode_hermitian tA tA tA rfl rfl (by norm_num [tA]) (by norm_num [tA])
    (fun r => by by_cases h : r = 0 <;> simp [tA, h])
    (fun r => by by_cases h : r = 0 <;> simp [tA, h])
    (fun r => by by_cases h : r = 0 <;> simp [tA, h])

/-! ### Claim C3: the transform round trip

The exact DFT facts needed: `expRoot N` is a primitive `N`-th root of
unity, two orthogonality relations for the forward/inverse kernels, and
the resulting composition `rfft ∘ irfft`. -/

/-- The real part of a complex number, recast into `ℂ`, is the average of
the number and its conjugate. -/
theorem ofReal_re_eq (z : ℂ) : ((z.re : ℝ) : ℂ) = (z + star z) / 2 := by
  rw [Complex.star_def, Complex.add_conj]
  push_cast
  ring

/-- `expRoot N` raised to the `N`-th power is 1. -/
theorem expRoot_pow {N : ℕ} (hN : N ≠ 0) : expRoot N ^ N = 1 := by
  have hNC : (N : ℂ) ≠ 0 := Nat.cast_ne_zero.mpr hN
  rw [expRoot, ← Complex.exp_nat_mul]
  have harg : (N : ℂ) * (2 * (Real.pi : ℂ) * Complex.I / (N : ℂ))
      = 2 * (Real.pi : ℂ) * Complex.I := by
    field_simp
  rw [harg, Complex.exp_two_pi_mul_I]

/-- Conjugating `expRoot N` inverts it. -/
theorem star_expRoot (N : ℕ) : star (expRoot N) = (expRoot N)⁻¹ := by
  have harg : (starRingEnd ℂ) (2 * (Real.pi : ℂ) * Complex.I / (N : ℕ))
      = -(2 * (Real.pi : ℂ) * Complex.I / (N : ℕ)) := by
    simp only [map_div₀, map_mul, Complex.conj_I, Complex.conj_ofReal, map_ofNat,
      Complex.conj_natCast]
    ring
  rw [expRoot, Complex.star_def, ← Complex.exp_conj, harg, Complex.exp_neg]

/-- `expRoot N` is nonzero. -/
theorem expRoot_ne_zero (N : ℕ) : expRoot N ≠ 0 := Complex.exp_ne_zero _

/-- `expRoot N` is a primitive `N`-th root of unity. -/
theorem expRoot_isPrimitive {N : ℕ} (hN : N ≠ 0) : IsPrimitiveRoot (expRoot N) N :=
  Complex.isPrimitiveRoot_exp N hN

/-- Geometric sum of a root of unity: `N` when the ratio is 1, zero
otherwise. -/
theorem sum_pow_root {ζ : ℂ} {N : ℕ} (h1 : ζ ^ N = 1) :
    ∑ t ∈ Finset.range N, ζ ^ t = if ζ = 1 then (N : ℂ) else 0 := by
  split_ifs with h
  · subst h
    simp
  · rw [geom_sum_eq h, h1, sub_self, zero_div]

/-- Orthogonality of the inverse and forward DFT kernels: summing
`expRoot^(t·j) · conj (expRoot)^(t·k)` over one period leaves `N` exactly
on the diagonal `j = k`. -/
theorem dft_ortho_mixed {N : ℕ} (hN : N ≠ 0) {j k : ℕ} (hj : j < N) (hk : k < N) :
    ∑ t ∈ Finset.range N, expRoot N ^ (t * j) * star (expRoot N) ^ (t * k) =
      if j = k then (N : ℂ) else 0 := by
  have hbase : ∀ t, expRoot N ^ (t * j) * star (expRoot N) ^ (t * k)
      = (expRoot N ^ j * star (expRoot N) ^ k) ^ t := by
    intro t
    rw [mul_pow, ← pow_mul, ← pow_mul, Nat.mul_comm j t, Nat.mul_comm k t]
  have hζN : (expRoot N ^ j * star (expRoot N) ^ k) ^ N = 1 := by
    rw [mul_pow, pow_right_comm, expRoot_pow hN, pow_right_comm, ← star_pow,
      expRoot_pow hN]
    simp
  have hcond : (expRoot N ^ j * star (expRoot N) ^ k = 1) ↔ j = k := by
    rw [star_expRoot, inv_pow, mul_inv_eq_one₀ (pow_ne_zero _ (expRoot_ne_zero N))]
    constructor
    · intro h
      exact (expRoot_isPrimitive hN).pow_inj hj hk h
    · rintro rfl
      rfl
  calc ∑ t ∈ Finset.range N, expRoot N ^ (t * j) * star (expRoot N) ^ (t * k)
      = ∑ t ∈ Finset.range N, (expRoot N ^ j * star (expRoot N) ^ k) ^ t :=
        Finset.sum_congr rfl (fun t _ => hbase t)
    _ = if expRoot N ^ j * star (expRoot N) ^ k = 1 then (N : ℂ) else 0 :=
        sum_pow_root hζN
    _ = if j = k then (N : ℂ) else 0 := by simp only [hcond]

/-- Orthogonality of the forward kernel with itself: summing
`conj (expRoot)^(t·m)` over one period leaves `N` exactly when `N ∣ m`. -/
theorem dft_ortho_conj {N : ℕ} (hN : N ≠ 0) (m : ℕ) :
    ∑ t ∈ Finset.range N, star (expRoot N) ^ (t * m) =
      if N ∣ m then (N : ℂ) else 0 := by
  have hbase : ∀ t, star (expRoot N) ^ (t * m) = (star (expRoot N) ^ m) ^ t := by
    intro t
    rw [← pow_mul, Nat.mul_comm m t]
  have hζN : (star (expRoot N) ^ m) ^ N = 1 := by
    rw [pow_right_comm, ← star_pow, expRoot_pow hN]
    simp
  have hcond : (star (expRoot N) ^ m = 1) ↔ N ∣ m := by
    rw [← star_pow]
    constructor
    · intro h
      have h' : expRoot N ^ m = 1 := by
        have hs := congrArg star h
        rwa [star_star, star_one] at hs
      exact ((expRoot_isPrimitive hN).pow_eq_one_iff_dvd m).mp h'
    · intro h
      rw [((expRoot_isPrimitive hN).pow_eq_one_iff_dvd m).mpr h, star_one]
  calc ∑ t ∈ Finset.range N, star (expRoot N) ^ (t * m)
      = ∑ t ∈ Finset.range N, (star (expRoot N) ^ m) ^ t :=
        Finset.sum_congr rfl (fun t _ => hbase t)
    _ = if star (expRoot N) ^ m = 1 then (N : ℂ) else 0 := sum_pow_root hζN
    _ = if N ∣ m then (N : ℂ) else 0 := by simp only [hcond]

/-- Forward transform of the inverse kernel's direct part: only mode `k`
survives. -/
theorem irfft_sum_mixed (M : ℕ) (c : ℕ → ℂ) (k : ℕ) (hN0 : nS M ≠ 0)
    (hkN : k < nS M) :
    ∑ t ∈ Finset.range (nS M),
        (∑ j ∈ Finset.range (nS M), extSpec M c j * expRoot (nS M) ^ (t * j)) *
          star (expRoot (nS M)) ^ (t * k)
      = extSpec M c k * (nS M : ℂ) := by
  have step1 : ∀ t ∈ Finset.range (nS M),
      (∑ j ∈ Finset.range (nS M), extSpec M c j * expRoot (nS M) ^ (t * j)) *
        star (expRoot (nS M)) ^ (t * k)
      = ∑ j ∈ Finset.range (nS M),
          extSpec M c j * (expRoot (nS M) ^ (t * j) * star (expRoot (nS M)) ^ (t * k)) := by
    intro t _
    rw [Finset.sum_mul]
    exact Finset.sum_congr rfl (fun j _ => by ring)
  rw [Finset.sum_congr rfl step1, Finset.sum_comm]
  have step2 : ∀ j ∈ Finset.range (nS M),
      ∑ t ∈ Finset.range (nS M),
          extSpec M c j * (expRoot (nS M) ^ (t * j) * star (expRoot (nS M)) ^ (t * k))
      = extSpec M c j * (if j = k then ((nS M : ℕ) : ℂ) else 0) := by
    intro j hj
    rw [← Finset.mul_sum, dft_ortho_mixed hN0 (Finset.mem_range.mp hj) hkN]
  rw [Finset.sum_congr rfl step2, Finset.sum_eq_single k]
  · rw [if_pos rfl]
  · intro j _ hjk
    rw [if_neg hjk, mul_zero]
  · intro hk'
    exact absurd (Finset.mem_range.mpr hkN) hk'

/-- Forward transform of the inverse kernel's conjugate part: only the
reflected mode `N - k` (or 0, for `k = 0`) survives. -/
theorem irfft_sum_conj (M : ℕ) (c : ℕ → ℂ) (k : ℕ) (hN0 : nS M ≠ 0)
    (hkN : k < nS M) :
    ∑ t ∈ Finset.range (nS M),
        star (∑ j ∈ Finset.range (nS M), extSpec M c j * expRoot (nS M) ^ (t * j)) *
          star (expRoot (nS M)) ^ (t * k)
      = star (extSpec M c (if k = 0 then 0 else nS M - k)) * (nS M : ℂ) := by
  have step1 : ∀ t ∈ Finset.range (nS M),
      star (∑ j ∈ Finset.range (nS M), extSpec M c j * expRoot (nS M) ^ (t * j)) *
        star (expRoot (nS M)) ^ (t * k)
      = ∑ j ∈ Finset.range (nS M),
          star (extSpec M c j) * star (expRoot (nS M)) ^ (t * (j + k)) := by
    intro t _
    rw [star_sum, Finset.sum_mul]
    apply Finset.sum_congr rfl
    intro j _
    rw [star_mul', star_pow, mul_assoc, ← pow_add, ← Nat.mul_add]
  rw [Finset.sum_congr rfl step1, Finset.sum_comm]
  have step2 : ∀ j ∈ Finset.range (nS M),
      ∑ t ∈ Finset.range (nS M),
          star (extSpec M c j) * star (expRoot (nS M)) ^ (t * (j + k))
      = star (extSpec M c j) * (if nS M ∣ (j + k) then ((nS M : ℕ) : ℂ) else 0) := by
    intro j _
    rw [← Finset.mul_sum, dft_ortho_conj hN0 (j + k)]
  rw [Finset.sum_congr rfl step2, Finset.sum_eq_single (if k = 0 then 0 else nS M - k)]
  · have hdvd : nS M ∣ ((if k = 0 then 0 else nS M - k) + k) := by
      rcases Nat.eq_zero_or_pos k with hk0 | hkpos
      · subst hk0
        simp
      · rw [if_neg (by omega), Nat.sub_add_cancel (le_of_lt hkN)]
    rw [if_pos hdvd]
  · intro j hj hjne
    have hjN := Finset.mem_range.mp hj
    have hnd : ¬ (nS M ∣ (j + k)) := by
      intro hdvd
      obtain ⟨q, hq⟩ := hdvd
      have hq2 : q < 2 := by
        by_contra hq2'
        push_neg at hq2'
        have hge : nS M * 2 ≤ nS M * q := Nat.mul_le_mul_left _ hq2'
        omega
      interval_cases q
      · have hk0 : k = 0 := by omega
        exact hjne (by rw [if_pos hk0]; omega)
      · rcases Nat.eq_zero_or_pos k with hk0 | hkpos
        · omega
        · exact hjne (by rw [if_neg (by omega)]; omega)
    rw [if_neg hnd, mul_zero]
  · intro habs
    have hmem : (if k = 0 then 0 else nS M - k) < nS M := by
      rcases Nat.eq_zero_or_pos k with hk0 | hkpos
      · rw [if_pos hk0]
        omega
      · rw [if_neg (by omega)]
        omega
    exact absurd (Finset.mem_range.mpr hmem) habs

/-- Composition of the forward transform with the inverse transform on a
half-spectrum of `M ≥ 2` modes whose zero and Nyquist coefficients are
real: every stored mode is recovered exactly. -/
theorem rfft_irfft (M : ℕ) (h2 : 2 ≤ M) (c : ℕ → ℂ) (k : ℕ) (hk : k < M)
    (hDC : (c 0).im = 0) (hNyq : (c (M - 1)).im = 0) :
    rfftRow (nS M) (irfftRow M c) k = c k := by
  have hN0 : nS M ≠ 0 := by rw [nS]; omega
  have hMN : M ≤ nS M := by rw [nS]; omega
  have hkN : k < nS M := lt_of_lt_of_le hk hMN
  have hNC : ((nS M : ℕ) : ℂ) ≠ 0 := Nat.cast_ne_zero.mpr hN0
  rw [rfftRow]
  calc ∑ t ∈ Finset.range (nS M), ((irfftRow M c t : ℝ) : ℂ) * star (expRoot (nS M)) ^ (t * k)
      = ∑ t ∈ Finset.range (nS M),
          (((nS M : ℕ) : ℂ)⁻¹ *
              ((∑ j ∈ Finset.range (nS M), extSpec M c j * expRoot (nS M) ^ (t * j)) *
                star (expRoot (nS M)) ^ (t * k))
            + ((nS M : ℕ) : ℂ)⁻¹ *
              (star (∑ j ∈ Finset.range (nS M), extSpec M c j * expRoot (nS M) ^ (t * j)) *
                star (expRoot (nS M)) ^ (t * k))) / 2 := by
        apply Finset.sum_congr rfl
        intro t _
        rw [irfftRow, ofReal_re_eq, star_mul', star_inv₀, star_natCast]
        ring
    _ = (((nS M : ℕ) : ℂ)⁻¹ *
          (∑ t ∈ Finset.range (nS M),
            (∑ j ∈ Finset.range (nS M), extSpec M c j * expRoot (nS M) ^ (t * j)) *
              star (expRoot (nS M)) ^ (t * k))
        + ((nS M : ℕ) : ℂ)⁻¹ *
          (∑ t ∈ Finset.range (nS M),
            star (∑ j ∈ Finset.range (nS M), extSpec M c j * expRoot (nS M) ^ (t * j)) *
              star (expRoot (nS M)) ^ (t * k))) / 2 := by
        rw [← Finset.sum_div]
        congr 1
        rw [Finset.sum_add_distrib, ← Finset.mul_sum, ← Finset.mul_sum]
    _ = (((nS M : ℕ) : ℂ)⁻¹ * (extSpec M c k * ((nS M : ℕ) : ℂ))
        + ((nS M : ℕ) : ℂ)⁻¹ *
            (star (extSpec M c (if k = 0 then 0 else nS M - k)) * ((nS M : ℕ) : ℂ))) / 2 := by
        rw [irfft_sum_mixed M c k hN0 hkN, irfft_sum_conj M c k hN0 hkN]
    _ = (extSpec M c k + star (extSpec M c (if k = 0 then 0 else nS M - k))) / 2 := by
        field_simp
    _ = c k := by
        rcases Nat.eq_zero_or_pos k with hk0 | hkpos
        · subst hk0
          rw [if_pos rfl, extSpec, if_pos (by omega), star_eq_self_of_im hDC]
          ring
        · rw [if_neg (by omega)]
          by_cases hkNyq : k = M - 1
          · subst hkNyq
            have hsub : nS M - (M - 1) = M - 1 := by rw [nS]; omega
            rw [hsub, extSpec, if_pos (by omega), star_eq_self_of_im hNyq]
            ring
          · have hge : ¬ (nS M - k < M) := by rw [nS]; omega
            rw [extSpec, if_pos hk, extSpec, if_neg hge]
            have hsub : nS M - (nS M - k) = k := by omega
            rw [hsub, star_star]
            ring

/-- C3: for a well-formed trajectory with at least two modes whose zero
and Nyquist modes are real (a valid half-spectrum, in which case the
`2*(M-1)`-point sampling represents all `M` modes without aliasing),
converting to the time domain and back to the frequency domain returns
the trajectory exactly. -/
theorem transform_roundtrip (t : Traj) (hWF : t.WF) (h2 : 2 ≤ t.M)
    (hDC : ∀ r, (t.modes r 0).im = 0) (hNyq : ∀ r, (t.modes r (t.M - 1)).im = 0) :
    (swap_tf_traj t).bind swap_tf_arr = .ok t := by
  have hN0 : nS t.M ≠ 0 := by rw [nS]; omega
  have hM' : nS t.M / 2 + 1 = t.M := by rw [nS]; omega
  rw [swap_tf_traj_ok h2]
  show swap_tf_arr (timeArr t) = .ok t
  rw [swap_tf_arr]
  simp only [timeArr, freqTraj]
  rw [if_neg hN0]
  congr 1
  apply Traj.ext
  · rfl
  · exact hM'
  · funext r k
    rw [hM']
    show (if r < t.d ∧ k < t.M then
        rfftRow (nS t.M) (fun s => if r < t.d ∧ s < nS t.M then irfftRow t.M (t.modes r) s else 0) k
      else 0) = t.modes r k
    by_cases hin : r < t.d ∧ k < t.M
    · rw [if_pos hin]
      have hrow : rfftRow (nS t.M)
          (fun s => if r < t.d ∧ s < nS t.M then irfftRow t.M (t.modes r) s else 0) k
          = rfftRow (nS t.M) (irfftRow t.M (t.modes r)) k := by
        rw [rfftRow, rfftRow]
        apply Finset.sum_congr rfl
        intro s hs
        rw [if_pos ⟨hin.1, Finset.mem_range.mp hs⟩]
      rw [hrow, rfft_irfft t.M h2 (t.modes r) k hin.2 (hDC r) (hNyq r)]
    · rw [if_neg hin]
      refine (hWF r k ?_).symm
      omega

/-- C3 witness: the exact round trip evaluated on the concrete valid
trajectory `tA`. -/
theorem transform_roundtrip_witness :
    (swap_tf_traj tA).bind swap_tf_arr = .ok tA :=
  transform_roundtrip tA
    (by
      intro r k h
      simp only [tA] at h ⊢
      split_ifs with h1 h2
      · exact absurd h (by omega)
      · exact absurd h (by omega)
      · rfl)
    (by norm_num [tA])
    (fun r => by by_cases h : r = 0 <;> simp [tA, h])
    (fun r => by by_cases h : r = 0 <;> simp [tA, h])

end RAdyn
